import Mathlib

/-!
Verification of the conserve traversal/ordering core: the `Apath` type and
comparator (src/apath.rs), the ordered live-tree walker (src/live_tree.rs)
and the generic copy engine (src/copy_tree.rs), shallowly embedded in Lean.
Rust strings are modelled as lists of characters; Rust `str` comparison is
byte-lexicographic on UTF-8, which coincides with lexicographic comparison
of code points, so comparing `Char` values by their numeric value is
faithful.
-/

namespace Conserve

/-- Rust strings, modelled as lists of characters. -/
abbrev Str := List Char

/-- Model of Rust `str.split('/')`: the (possibly empty) pieces between
occurrences of the separator; splitting the empty string yields one empty
piece, and every occurrence of `'/'` starts a new piece. -/
def splitSlash : Str → List Str
  | [] => [[]]
  | c :: rest =>
    if c = '/' then [] :: splitSlash rest
    else
      match splitSlash rest with
      | [] => [[c]]
      | s :: ss => (c :: s) :: ss

/-- Inverse of `splitSlash`: interleave the pieces with `'/'`. -/
def joinSlash : List Str → Str
  | [] => []
  | [p] => p
  | p :: q :: ps => p ++ '/' :: joinSlash (q :: ps)

/-- Model of Rust `str::cmp`: lexicographic comparison of the characters. -/
def strCmp : Str → Str → Ordering
  | [], [] => .eq
  | [], _ :: _ => .lt
  | _ :: _, [] => .gt
  | a :: as, b :: bs =>
    if a.toNat < b.toNat then .lt
    else if b.toNat < a.toNat then .gt
    else strCmp as bs

/-- The loop of `Apath::cmp` (src/apath.rs lines 136-162): `oa` and `ob` are
the current components of each path, the two lists are the components still
to come.  When one path ends and the other continues, the shorter path wins
immediately, without comparing `oa` and `ob`. -/
def cmpLoop : Str → Str → List Str → List Str → Ordering
  | oa, ob, [], [] => strCmp oa ob
  | _, _, [], _ :: _ => .lt
  | _, _, _ :: _, [] => .gt
  | oa, ob, ac :: as, bc :: bs =>
    match strCmp oa ob with
    | .eq => cmpLoop ac bc as bs
    | other => other

/-- Model of `Apath::cmp`: split both strings on `'/'` and run the
comparison loop.  The `none` branch models the `expect` panic on an empty
split iterator, which can never fire because `splitSlash` always returns at
least one piece. -/
def apathCmp (a b : Str) : Option Ordering :=
  match splitSlash a, splitSlash b with
  | oa :: as, ob :: bs => some (cmpLoop oa ob as bs)
  | _, _ => none

/-- The NUL character, `'\0'` in the Rust source. -/
def nulChar : Char := Char.ofNat 0

/-- Model of `Apath::is_valid` (src/apath.rs lines 34-46): the string must
start with `'/'`; a one-character string (hence exactly "/") is valid; and
otherwise every piece of the remainder split on `'/'` must be non-empty,
different from "." and "..", and contain no NUL. -/
def Apath.is_valid (a : Str) : Bool :=
  match a with
  | [] => false
  | c :: rest =>
    if c = '/' then
      if rest.isEmpty then true
      else
        (splitSlash rest).all fun part =>
          !(part.isEmpty || part == ['.'] || part == ['.', '.']
            || part.contains nulChar)
    else false

/-- Entry kinds (the `Kind` enum used by live_tree.rs and copy_tree.rs). -/
inductive Kind where
  | file
  | dir
  | symlink
  | unknown
deriving DecidableEq

/-- Model of a filesystem snapshot: what `stat` and `read_dir` observe under
the walker's root.  Directory children are stored in the (arbitrary) order
`read_dir` yields them; `mtime` models the opaque modification time. -/
inductive FsTree where
  | file (mtime : Int) (size : Nat) : FsTree
  | dir (mtime : Int) (children : List (Str × FsTree)) : FsTree
  | symlink (mtime : Int) (target : Str) : FsTree
  | other (mtime : Int) : FsTree

/-- Kind of a filesystem node, as `LiveEntry::from_fs_metadata` classifies
metadata (is_file, then is_dir, then is_symlink, else unknown). -/
def FsTree.kind : FsTree → Kind
  | .file _ _ => .file
  | .dir _ _ => .dir
  | .symlink _ _ => .symlink
  | .other _ => .unknown

/-- Modification time of a filesystem node (`metadata.modified()`). -/
def FsTree.mtime : FsTree → Int
  | .file m _ => m
  | .dir m _ => m
  | .symlink m _ => m
  | .other m => m

/-- Association lookup of a directory child by name. -/
def lookupChild : List (Str × FsTree) → Str → Option FsTree
  | [], _ => none
  | (n, t) :: rest, name => if n = name then some t else lookupChild rest name

/-- Resolve a component path below a node, modelling how the OS resolves
`root_path` joined with the relative path of an apath. -/
def FsTree.lookup : FsTree → List Str → Option FsTree
  | t, [] => some t
  | .dir _ cs, n :: rest =>
    match lookupChild cs n with
    | some c => FsTree.lookup c rest
    | none => none
  | _, _ :: _ => none

/-- Components of an apath relative to the root: `relative_path` joins the
root with `apath[1..]`, which is empty for the root apath "/". -/
def apathComponents (a : Str) : List Str :=
  if a = ['/'] then [] else (splitSlash a).drop 1

/-- Model of `LiveEntry` (live_tree.rs lines 51-57). -/
structure LiveEntry where
  apath : Str
  kind : Kind
  mtime : Int
  size : Option Nat
  symlink_target : Option Str
deriving DecidableEq

/-- Model of `LiveEntry::from_fs_metadata` (live_tree.rs lines 136-165). -/
def LiveEntry.from_fs_metadata (apath : Str) (t : FsTree)
    (symlink_target : Option Str) : LiveEntry :=
  { apath := apath
    kind := t.kind
    mtime := t.mtime
    size := match t with | .file _ sz => some sz | _ => none
    symlink_target := symlink_target }

/-- The counters and diagnostics of a `Report` that the walker touches:
"source.visited.directories", "source.selected", the three
"skipped.excluded.*" counters, errors surfaced via `show_error`, and
non-fatal `problem` messages. -/
structure Report where
  visited_directories : Nat := 0
  selected : Nat := 0
  skipped_excluded_files : Nat := 0
  skipped_excluded_directories : Nat := 0
  skipped_excluded_symlinks : Nat := 0
  errors_shown : Nat := 0
  problems : Nat := 0
deriving DecidableEq

/-- A fresh report, all counters zero. -/
def initialReport : Report := {}

/-- Model of the walker `Iter` (live_tree.rs lines 169-188).  The `root`
field models `root_path` together with the filesystem it resolves against;
`last_apath` is the `CheckOrder` state; deque fronts are list heads. -/
structure Iter where
  root : FsTree
  dir_deque : List Str
  entry_deque : List LiveEntry
  report : Report
  last_apath : Option Str
  excludes : Str → Bool

/-- Child apath composition (live_tree.rs lines 258-274): the parent apath,
a `'/'` separator unless the parent is the root, then the child name. -/
def childApathOf (parent name : Str) : Str :=
  if parent = ['/'] then parent ++ name else parent ++ '/' :: name

/-- Symlink target resolution: in the model the link target is stored in the
node, so `read_link` and the text decode always succeed. -/
def symTargetOf : FsTree → Option Str
  | .symlink _ t => some t
  | _ => none

/-- One child of the directory being expanded (live_tree.rs lines 247-350):
compose the child apath, test the exclusion predicate (counting a skip per
kind; unknown kinds match no counter branch), and otherwise build the entry.
The source's name-decode, file-type, metadata and symlink-read failures are
driven by the external filesystem and cannot occur against a consistent
snapshot, so their report-and-continue branches have no model counterpart. -/
def visitChildStep (excludes : Str → Bool) (parent : Str)
    (acc : List (Str × LiveEntry) × Report) (c : Str × FsTree) :
    List (Str × LiveEntry) × Report :=
  let child_apath := childApathOf parent c.1
  if excludes child_apath then
    match c.2.kind with
    | .file => (acc.1, { acc.2 with
        skipped_excluded_files := acc.2.skipped_excluded_files + 1 })
    | .dir => (acc.1, { acc.2 with
        skipped_excluded_directories := acc.2.skipped_excluded_directories + 1 })
    | .symlink => (acc.1, { acc.2 with
        skipped_excluded_symlinks := acc.2.skipped_excluded_symlinks + 1 })
    | .unknown => (acc.1, acc.2)
  else
    (acc.1 ++ [(c.1, LiveEntry.from_fs_metadata child_apath c.2
        (symTargetOf c.2))], acc.2)

/-- Insertion step of `children.sort_unstable_by(|a, b| a.0.cmp(&b.0))`. -/
def insertByName (x : Str × LiveEntry) :
    List (Str × LiveEntry) → List (Str × LiveEntry)
  | [] => [x]
  | y :: ys =>
    if strCmp x.1 y.1 = .gt then y :: insertByName x ys else x :: y :: ys

/-- Sorting the classified children by name under plain string comparison. -/
def sortByName : List (Str × LiveEntry) → List (Str × LiveEntry)
  | [] => []
  | x :: xs => insertByName x (sortByName xs)

/-- Model of `Iter::visit_next_directory` (live_tree.rs lines 227-361):
count the visit, list the directory (a failure, e.g. the path no longer
naming a directory, is reported as a problem and aborts this expansion),
classify each child, sort survivors by name, push child directories onto
the front of the dir deque in reverse sorted order, and append all sorted
survivors to the back of the entry deque. -/
def visit_next_directory (st : Iter) (parent_apath : Str) : Iter :=
  let rep := { st.report with
    visited_directories := st.report.visited_directories + 1 }
  match st.root.lookup (apathComponents parent_apath) with
  | some (.dir _ cs) =>
    let cr := cs.foldl (visitChildStep st.excludes parent_apath) ([], rep)
    let sorted := sortByName cr.1
    let newDirs := ((sorted.filter fun x => x.2.kind = Kind.dir).reverse).foldl
      (fun dq x => x.2.apath :: dq) st.dir_deque
    { st with
      report := cr.2
      dir_deque := newDirs
      entry_deque := st.entry_deque ++ sorted.map (fun x => x.2) }
  | _ => { st with report := { rep with problems := rep.problems + 1 } }

/-- Model of `Iter::new` (live_tree.rs lines 193-221): stat the root
(`none` models a failed `symlink_metadata`); on failure show the error on
the report and return it as the fatal error; on success prime the entry
deque with the root entry at "/" and the dir deque with "/". -/
def Iter.new (root : Option FsTree) (excludes : Str → Bool)
    (report : Report) : Except Report Iter :=
  match root with
  | none => .error { report with errors_shown := report.errors_shown + 1 }
  | some t =>
    .ok { root := t
          dir_deque := [['/']]
          entry_deque := [LiveEntry.from_fs_metadata ['/'] t none]
          report := report
          last_apath := none
          excludes := excludes }

/-- Model of `Iterator::next` for `Iter` (live_tree.rs lines 375-391): pop
the front ready entry if there is one (counting "source.selected" and
recording the apath with the order checker), otherwise expand the front
pending directory and retry, otherwise the walk is exhausted.  The loop is
fuelled; exhausting fuel returns the state unchanged. -/
def Iter.next : Nat → Iter → Option LiveEntry × Iter
  | fuel, st =>
    match st.entry_deque with
    | e :: rest =>
      (some e, { st with
        entry_deque := rest
        report := { st.report with selected := st.report.selected + 1 }
        last_apath := some e.apath })
    | [] =>
      match st.dir_deque with
      | d :: ds =>
        match fuel with
        | 0 => (none, st)
        | fuel + 1 =>
          Iter.next fuel (visit_next_directory { st with dir_deque := ds } d)
      | [] => (none, st)

/-- Collect all entries the walker yields, with the final walker state. -/
def Iter.drain : Nat → Iter → List LiveEntry × Iter
  | 0, st => ([], st)
  | fuel + 1, st =>
    match Iter.next (fuel + 1) st with
    | (none, st2) => ([], st2)
    | (some e, st2) =>
      let r := Iter.drain fuel st2
      (e :: r.1, r.2)

/-- The children of a directory listing that survive the exclusion
predicate, paired with their names, in listing order: the loop of
`visit_next_directory` restricted to its surviving output. -/
def surviving (excludes : Str → Bool) (parent : Str)
    (cs : List (Str × FsTree)) : List (Str × LiveEntry) :=
  cs.filterMap fun c =>
    let child_apath := childApathOf parent c.1
    if excludes child_apath then none
    else some (c.1, LiveEntry.from_fs_metadata child_apath c.2 (symTargetOf c.2))

/-- Decides whether `p` begins `s`. -/
def strHasPre : Str → Str → Bool
  | [], _ => true
  | _ :: _, [] => false
  | p :: ps, s :: ss => p == s && strHasPre ps ss

/-- Decides whether `p` ends `s`. -/
def strEndsWith (p s : Str) : Bool := strHasPre p.reverse s.reverse

/-- The `baz` subdirectory of the exclusion fixture. -/
def bazNode : FsTree :=
  .dir 0
    [("bar".toList, .file 0 0),
     ("bas".toList, .file 0 0),
     ("test".toList, .file 0 0)]

/-- Top-level children of the exclusion fixture of live_tree.rs tests
(lines 443-485): files `foooo` and `bar`, empty directory `fooooBar`,
directory `baz` containing files `bar`, `bas` and `test`, in creation
order. -/
def fixtureChildren : List (Str × FsTree) :=
  [("foooo".toList, .file 0 0),
   ("bar".toList, .file 0 0),
   ("fooooBar".toList, .dir 0 []),
   ("baz".toList, bazNode)]

/-- The root of the exclusion fixture. -/
def fixtureTree : FsTree := .dir 0 fixtureChildren

/-- The exclusion predicate the fixture's glob patterns `/**/fooo*`,
`/**/ba[pqr]` and `/**/*bas` compile to.  Glob compilation is an external
collaborator (spec §6); per the spec the patterns mean: skip names starting
with `fooo`, skip names `bap`, `baq`, `bar`, and skip names ending in
`bas`, matched against the final component of the candidate apath. -/
def fixtureExcludes (ap : Str) : Bool :=
  let name := (splitSlash ap).getLastD []
  strHasPre ("fooo".toList) name
    || name == "bap".toList || name == "baq".toList || name == "bar".toList
    || strEndsWith ("bas".toList) name

/-- Model of `LiveTree` (live_tree.rs lines 21-25): the stored root path is
modelled, together with what the filesystem holds there, as `root`
(`none` when nothing can be stat-ed at the path), plus the exclusion set
and the report. -/
structure LiveTree where
  root : Option FsTree
  excludes : Str → Bool
  report : Report

/-- Model of `excludes::excludes_nothing()`: a matcher matching nothing. -/
def excludes_nothing : Str → Bool := fun _ => false

/-- Model of `LiveTree::open` (live_tree.rs lines 28-35): store the path,
report and an empty exclusion set; the root is not checked (the source's
own TODO notes that it might fail here but does not). -/
def LiveTree.open (root : Option FsTree) (report : Report) :
    Except Report LiveTree :=
  .ok { root := root, excludes := excludes_nothing, report := report }

/-- Model of `ReadTree::iter_entries` for `LiveTree` (live_tree.rs lines
78-80): construct the walker over the stored root and exclusions. -/
def LiveTree.iter_entries (lt : LiveTree) (report : Report) :
    Except Report Iter :=
  Iter.new lt.root lt.excludes report

/-- Modelled from the spec: `CopyStats` lives in src/stats.rs, which is not
part of this source set.  Per spec §3 it is "counters for directories,
files, symlinks, unknown-kind entries, and errors encountered, plus
byte/content statistics merged in", accumulated additively. -/
structure CopyStats where
  directories : Nat := 0
  files : Nat := 0
  symlinks : Nat := 0
  unknown_kind : Nat := 0
  errors : Nat := 0
  file_bytes : Nat := 0
deriving DecidableEq

/-- Modelled from the spec: the `+=` merge of two `CopyStats`, additive on
every counter. -/
def CopyStats.add (a b : CopyStats) : CopyStats :=
  { directories := a.directories + b.directories
    files := a.files + b.files
    symlinks := a.symlinks + b.symlinks
    unknown_kind := a.unknown_kind + b.unknown_kind
    errors := a.errors + b.errors
    file_bytes := a.file_bytes + b.file_bytes }

/-- Model of `CopyOptions` (copy_tree.rs lines 12-16).  `measure_first`
only drives the progress display (it totals source bytes for the UI), so it
has no further model behaviour. -/
structure CopyOptions where
  print_filenames : Bool
  measure_first : Bool

/-- Model of a `WriteTree` destination with state type `σ` and error type
`ε`: each operation consumes and returns the destination state, as the
mutable `dest` does in Rust. -/
structure DestModel (ε σ : Type) where
  copy_dir : σ → LiveEntry → σ × Except ε Unit
  copy_file : σ → LiveEntry → σ × Except ε CopyStats
  copy_symlink : σ → LiveEntry → σ × Except ε Unit
  finish : σ → Except ε CopyStats

/-- One destination operation requested by the copy engine, for comparing
what two runs ask the destination to do. -/
inductive DestOp where
  | copy_dir (apath : Str)
  | copy_file (apath : Str)
  | copy_symlink (apath : Str)
  | finish
deriving DecidableEq

/-- Outcome of a copy run: the destination operations requested in order,
the console lines printed, and the returned result. -/
structure CopyOut (ε : Type) where
  ops : List DestOp
  printed : List Str
  result : Except ε CopyStats

/-- The per-entry loop of `copy_tree` (copy_tree.rs lines 42-114) followed
by `dest.finish()` (line 116).  The live debug lines 43 and 51-54 split the
entry's apath on `'/'`, index piece 1 (the `none` branch models the panic
if that piece does not exist) and print it together with the result of
comparing it to the fixed name "DataScienceatHome"; the value is never used
afterwards.  A failing destination operation is shown on the UI, counts one
error, and the loop continues; unknown kinds only count. -/
def copyTreeGo {ε σ : Type} (dest : DestModel ε σ) (options : CopyOptions) :
    List LiveEntry → σ → CopyStats → List DestOp → List Str →
    Option (CopyOut ε)
  | [], s, stats, ops, pr =>
    match dest.finish s with
    | .ok fs => some ⟨ops ++ [.finish], pr, .ok (stats.add fs)⟩
    | .error e => some ⟨ops ++ [.finish], pr, .error e⟩
  | entry :: rest, s, stats, ops, pr =>
    let target := "DataScienceatHome".toList
    let subtree := splitSlash entry.apath
    match subtree.get? 1 with
    | none => none
    | some s1 =>
      let to_be_copied := s1 == target
      let pr := pr ++ [s1, (if to_be_copied then "true" else "false").toList]
      let pr := if options.print_filenames then pr ++ [entry.apath] else pr
      match entry.kind with
      | .dir =>
        let stats := { stats with directories := stats.directories + 1 }
        let r := dest.copy_dir s entry
        let ops := ops ++ [.copy_dir entry.apath]
        match r.2 with
        | .ok _ => copyTreeGo dest options rest r.1 stats ops pr
        | .error _ => copyTreeGo dest options rest r.1
            { stats with errors := stats.errors + 1 } ops pr
      | .file =>
        let stats := { stats with files := stats.files + 1 }
        let r := dest.copy_file s entry
        let ops := ops ++ [.copy_file entry.apath]
        match r.2 with
        | .ok fst => copyTreeGo dest options rest r.1 (stats.add fst) ops pr
        | .error _ => copyTreeGo dest options rest r.1
            { stats with errors := stats.errors + 1 } ops pr
      | .symlink =>
        let stats := { stats with symlinks := stats.symlinks + 1 }
        let r := dest.copy_symlink s entry
        let ops := ops ++ [.copy_symlink entry.apath]
        match r.2 with
        | .ok _ => copyTreeGo dest options rest r.1 stats ops pr
        | .error _ => copyTreeGo dest options rest r.1
            { stats with errors := stats.errors + 1 } ops pr
      | .unknown =>
        copyTreeGo dest options rest s
          { stats with unknown_kind := stats.unknown_kind + 1 } ops pr

/-- Model of `copy_tree` (copy_tree.rs lines 24-119): run the per-entry
loop from empty accumulators over the source's ordered entries.  `none`
models a panic of the live debug indexing. -/
def copy_tree {ε σ : Type} (source : List LiveEntry) (dest : DestModel ε σ)
    (s0 : σ) (options : CopyOptions) : Option (CopyOut ε) :=
  copyTreeGo dest options source s0 {} [] []

/-- The per-entry loop of `copy_tree` with the exploratory debug block
(copy_tree.rs lines 42-82) removed: identical dispatch, statistics and
error handling, no apath splitting and no debug printing. -/
def copyTreeCleanGo {ε σ : Type} (dest : DestModel ε σ)
    (options : CopyOptions) :
    List LiveEntry → σ → CopyStats → List DestOp → List Str → CopyOut ε
  | [], s, stats, ops, pr =>
    match dest.finish s with
    | .ok fs => ⟨ops ++ [.finish], pr, .ok (stats.add fs)⟩
    | .error e => ⟨ops ++ [.finish], pr, .error e⟩
  | entry :: rest, s, stats, ops, pr =>
    let pr := if options.print_filenames then pr ++ [entry.apath] else pr
    match entry.kind with
    | .dir =>
      let stats := { stats with directories := stats.directories + 1 }
      let r := dest.copy_dir s entry
      let ops := ops ++ [.copy_dir entry.apath]
      match r.2 with
      | .ok _ => copyTreeCleanGo dest options rest r.1 stats ops pr
      | .error _ => copyTreeCleanGo dest options rest r.1
          { stats with errors := stats.errors + 1 } ops pr
    | .file =>
      let stats := { stats with files := stats.files + 1 }
      let r := dest.copy_file s entry
      let ops := ops ++ [.copy_file entry.apath]
      match r.2 with
      | .ok fst => copyTreeCleanGo dest options rest r.1 (stats.add fst) ops pr
      | .error _ => copyTreeCleanGo dest options rest r.1
          { stats with errors := stats.errors + 1 } ops pr
    | .symlink =>
      let stats := { stats with symlinks := stats.symlinks + 1 }
      let r := dest.copy_symlink s entry
      let ops := ops ++ [.copy_symlink entry.apath]
      match r.2 with
      | .ok _ => copyTreeCleanGo dest options rest r.1 stats ops pr
      | .error _ => copyTreeCleanGo dest options rest r.1
          { stats with errors := stats.errors + 1 } ops pr
    | .unknown =>
      copyTreeCleanGo dest options rest s
        { stats with unknown_kind := stats.unknown_kind + 1 } ops pr

/-- `copy_tree` with the debug block removed, for the equivalence claim. -/
def copy_tree_clean {ε σ : Type} (source : List LiveEntry)
    (dest : DestModel ε σ) (s0 : σ) (options : CopyOptions) : CopyOut ε :=
  copyTreeCleanGo dest options source s0 {} [] []

/-- Destination state after the copy loop has processed these entries. -/
def destAfter {ε σ : Type} (dest : DestModel ε σ) :
    σ → List LiveEntry → σ
  | s, [] => s
  | s, e :: rest =>
    match e.kind with
    | .dir => destAfter dest (dest.copy_dir s e).1 rest
    | .file => destAfter dest (dest.copy_file s e).1 rest
    | .symlink => destAfter dest (dest.copy_symlink s e).1 rest
    | .unknown => destAfter dest s rest

/-- The destination operations the copy loop requests for these entries:
one per directory, file or symlink entry, none for unknown kinds. -/
def opsOf {ε σ : Type} (dest : DestModel ε σ) :
    σ → List LiveEntry → List DestOp
  | _, [] => []
  | s, e :: rest =>
    match e.kind with
    | .dir => .copy_dir e.apath :: opsOf dest (dest.copy_dir s e).1 rest
    | .file => .copy_file e.apath :: opsOf dest (dest.copy_file s e).1 rest
    | .symlink =>
      .copy_symlink e.apath :: opsOf dest (dest.copy_symlink s e).1 rest
    | .unknown => opsOf dest s rest

/-- Statistics accumulated by the copy loop over these entries, before the
destination's finish statistics are merged in. -/
def statsAfter {ε σ : Type} (dest : DestModel ε σ) :
    σ → CopyStats → List LiveEntry → CopyStats
  | _, stats, [] => stats
  | s, stats, e :: rest =>
    match e.kind with
    | .dir =>
      let stats := { stats with directories := stats.directories + 1 }
      let r := dest.copy_dir s e
      statsAfter dest r.1
        (match r.2 with
         | .ok _ => stats
         | .error _ => { stats with errors := stats.errors + 1 }) rest
    | .file =>
      let stats := { stats with files := stats.files + 1 }
      let r := dest.copy_file s e
      statsAfter dest r.1
        (match r.2 with
         | .ok fst => stats.add fst
         | .error _ => { stats with errors := stats.errors + 1 }) rest
    | .symlink =>
      let stats := { stats with symlinks := stats.symlinks + 1 }
      let r := dest.copy_symlink s e
      statsAfter dest r.1
        (match r.2 with
         | .ok _ => stats
         | .error _ => { stats with errors := stats.errors + 1 }) rest
    | .unknown =>
      statsAfter dest s
        { stats with unknown_kind := stats.unknown_kind + 1 } rest

/-- Number of entries whose destination operation fails in this run. -/
def countFailed {ε σ : Type} (dest : DestModel ε σ) :
    σ → List LiveEntry → Nat
  | _, [] => 0
  | s, e :: rest =>
    match e.kind with
    | .dir =>
      let r := dest.copy_dir s e
      (match r.2 with | .ok _ => 0 | .error _ => 1) + countFailed dest r.1 rest
    | .file =>
      let r := dest.copy_file s e
      (match r.2 with | .ok _ => 0 | .error _ => 1) + countFailed dest r.1 rest
    | .symlink =>
      let r := dest.copy_symlink s e
      (match r.2 with | .ok _ => 0 | .error _ => 1) + countFailed dest r.1 rest
    | .unknown => countFailed dest s rest

/-- A concrete walker state over the fixture tree, with one ready entry and
one previously pending directory. -/
def witnessIterSt : Iter :=
  { root := fixtureTree
    dir_deque := ["/x".toList]
    entry_deque := [LiveEntry.from_fs_metadata ['/'] fixtureTree none]
    report := initialReport
    last_apath := none
    excludes := excludes_nothing }

/-- A two-entry source (the root directory and one file) of valid apaths. -/
def witnessSource : List LiveEntry :=
  [{ apath := ['/'], kind := .dir, mtime := 0, size := none,
     symlink_target := none },
   { apath := "/a".toList, kind := .file, mtime := 0, size := some 3,
     symlink_target := none }]

/-- A destination whose file copies always fail and whose finish succeeds. -/
def witnessDest : DestModel Nat Nat :=
  { copy_dir := fun s _ => (s + 1, .ok ())
    copy_file := fun s _ => (s + 1, .error 7)
    copy_symlink := fun s _ => (s + 1, .ok ())
    finish := fun _ => .ok {} }

/-- A destination whose finish fails. -/
def witnessFinishFailDest : DestModel Nat Nat :=
  { copy_dir := fun s _ => (s + 1, .ok ())
    copy_file := fun s _ => (s + 1, .ok {})
    copy_symlink := fun s _ => (s + 1, .ok ())
    finish := fun _ => .error 9 }

/-- Unfolding: splitting a string that starts with the separator. -/
theorem splitSlash_cons_slash (rest : Str) :
    splitSlash ('/' :: rest) = [] :: splitSlash rest := by
  simp [splitSlash]

/-- Splitting never yields an empty list of pieces. -/
theorem splitSlash_ne_nil (s : Str) : splitSlash s ≠ [] := by
  induction s with
  | nil => simp [splitSlash]
  | cons c rest ih =>
    simp only [splitSlash]
    split
    · simp
    · cases h : splitSlash rest with
      | nil => simp
      | cons a as => simp

/-- Unfolding: splitting a string that starts with an ordinary character. -/
theorem splitSlash_cons_ne {c : Char} (rest : Str) (hc : c ≠ '/')
    {a : Str} {as : List Str} (h : splitSlash rest = a :: as) :
    splitSlash (c :: rest) = (c :: a) :: as := by
  simp [splitSlash, if_neg hc, h]

/-- Splitting distributes over concatenation at a separator. -/
theorem splitSlash_append_slash (u v : Str) :
    splitSlash (u ++ '/' :: v) = splitSlash u ++ splitSlash v := by
  induction u with
  | nil => simp [splitSlash]
  | cons c u ih =>
    by_cases hc : c = '/'
    · subst hc
      rw [List.cons_append, splitSlash_cons_slash, splitSlash_cons_slash, ih,
        List.cons_append]
    · cases h : splitSlash u with
      | nil => exact absurd h (splitSlash_ne_nil u)
      | cons s ss =>
        have h2 : splitSlash (u ++ '/' :: v) = s :: (ss ++ splitSlash v) := by
          rw [ih, h, List.cons_append]
        rw [List.cons_append, splitSlash_cons_ne _ hc h2,
          splitSlash_cons_ne _ hc h, List.cons_append]

/-- A string with no separator splits into a single piece. -/
theorem splitSlash_no_slash (n : Str) (h : ('/' : Char) ∉ n) :
    splitSlash n = [n] := by
  induction n with
  | nil => simp [splitSlash]
  | cons c rest ih =>
    have hc : c ≠ '/' := fun hh => h (hh ▸ List.mem_cons_self c rest)
    have hr : ('/' : Char) ∉ rest := fun hh => h (List.mem_cons_of_mem c hh)
    rw [splitSlash_cons_ne rest hc (ih hr)]

/-- Joining undoes splitting. -/
theorem joinSlash_splitSlash (s : Str) : joinSlash (splitSlash s) = s := by
  induction s with
  | nil => simp [splitSlash, joinSlash]
  | cons c rest ih =>
    cases h : splitSlash rest with
    | nil => exact absurd h (splitSlash_ne_nil rest)
    | cons a as =>
      rw [h] at ih
      by_cases hc : c = '/'
      · subst hc
        rw [splitSlash_cons_slash, h]
        show [] ++ '/' :: joinSlash (a :: as) = '/' :: rest
        rw [ih, List.nil_append]
      · rw [splitSlash_cons_ne rest hc h]
        cases as with
        | nil =>
          show c :: a = c :: rest
          simp only [joinSlash] at ih
          rw [ih]
        | cons b bs =>
          show (c :: a) ++ '/' :: joinSlash (b :: bs) = c :: rest
          simp only [joinSlash] at ih
          rw [List.cons_append, ← ih]

/-- Splitting is injective. -/
theorem splitSlash_inj {a b : Str} (h : splitSlash a = splitSlash b) :
    a = b := by
  have ha := joinSlash_splitSlash a
  have hb := joinSlash_splitSlash b
  rw [← ha, ← hb, h]

/-- A character other than the separator survives into some piece. -/
theorem mem_splitSlash {c : Char} (hc : c ≠ '/') :
    ∀ {s : Str}, c ∈ s → ∃ p ∈ splitSlash s, c ∈ p := by
  intro s
  induction s with
  | nil => intro h; exact absurd h (List.not_mem_nil c)
  | cons d rest ih =>
    intro h
    by_cases hd : d = '/'
    · subst hd
      rcases List.mem_cons.mp h with h1 | h2
      · exact absurd h1 hc
      · rcases ih h2 with ⟨p, hp, hcp⟩
        exact ⟨p, by simp [splitSlash, hp], hcp⟩
    · cases hs : splitSlash rest with
      | nil => exact absurd hs (splitSlash_ne_nil rest)
      | cons t ts =>
        rcases List.mem_cons.mp h with h1 | h2
        · refine ⟨d :: t, ?_, by simp [h1]⟩
          simp [splitSlash, if_neg hd, hs]
        · rcases ih h2 with ⟨p, hp, hcp⟩
          rw [hs] at hp
          rcases List.mem_cons.mp hp with h3 | h4
          · refine ⟨d :: t, ?_, by simp [← h3, hcp]⟩
            simp [splitSlash, if_neg hd, hs]
          · refine ⟨p, ?_, hcp⟩
            simp [splitSlash, if_neg hd, hs, h4]

/-- Characters with equal code points are equal. -/
theorem charToNat_inj {a b : Char} (h : a.toNat = b.toNat) : a = b :=
  Char.ext (UInt32.ext h)

/-- String comparison returns `eq` exactly on equal strings. -/
theorem strCmp_eq_iff (a b : Str) : strCmp a b = .eq ↔ a = b := by
  induction a generalizing b with
  | nil => cases b <;> simp [strCmp]
  | cons x xs ih =>
    cases b with
    | nil => simp [strCmp]
    | cons y ys =>
      simp only [strCmp]
      split_ifs with h1 h2
      · constructor
        · intro hh; exact absurd hh (by decide)
        · intro hh
          rw [List.cons.injEq] at hh
          rw [hh.1] at h1
          exact absurd h1 (lt_irrefl _)
      · constructor
        · intro hh; exact absurd hh (by decide)
        · intro hh
          rw [List.cons.injEq] at hh
          rw [hh.1] at h2
          exact absurd h2 (lt_irrefl _)
      · have hxy : x = y :=
          charToNat_inj (Nat.le_antisymm (Nat.le_of_not_lt h2)
            (Nat.le_of_not_lt h1))
        subst hxy
        rw [ih ys]
        simp

/-- String comparison compares equal strings as `eq`. -/
theorem strCmp_self (a : Str) : strCmp a a = .eq :=
  (strCmp_eq_iff a a).mpr rfl

/-- Swapping the arguments of string comparison swaps the ordering. -/
theorem strCmp_swap (a b : Str) : strCmp b a = (strCmp a b).swap := by
  induction a generalizing b with
  | nil => cases b <;> simp [strCmp, Ordering.swap]
  | cons x xs ih =>
    cases b with
    | nil => simp [strCmp, Ordering.swap]
    | cons y ys =>
      simp only [strCmp]
      by_cases h1 : x.toNat < y.toNat
      · rw [if_neg (by omega), if_pos h1, if_pos h1]
        rfl
      · by_cases h2 : y.toNat < x.toNat
        · rw [if_pos h2, if_neg h1, if_pos h2]
          rfl
        · have hxy : x = y :=
            charToNat_inj (Nat.le_antisymm (Nat.le_of_not_lt h2)
              (Nat.le_of_not_lt h1))
          subst hxy
          simp only [if_neg h1]
          exact ih ys

/-- String comparison is transitive in its strict part. -/
theorem strCmp_lt_trans : ∀ (a b c : Str), strCmp a b = .lt →
    strCmp b c = .lt → strCmp a c = .lt := by
  intro a
  induction a with
  | nil =>
    intro b c h1 h2
    cases b with
    | nil => simp [strCmp] at h1
    | cons y ys =>
      cases c with
      | nil => simp [strCmp] at h2
      | cons z zs => simp [strCmp]
  | cons x xs ih =>
    intro b c h1 h2
    cases b with
    | nil => simp [strCmp] at h1
    | cons y ys =>
      cases c with
      | nil => simp [strCmp] at h2
      | cons z zs =>
        simp only [strCmp] at h1 h2 ⊢
        split_ifs at h1 h2 ⊢ <;>
          first
          | rfl
          | (exfalso; omega)
          | simp at h1
          | simp at h2
          | exact ih ys zs h1 h2

/-- The comparison loop returns `eq` exactly on equal component lists. -/
theorem cmpLoop_eq_iff : ∀ (as bs : List Str) (oa ob : Str),
    cmpLoop oa ob as bs = .eq ↔ (oa = ob ∧ as = bs) := by
  intro as
  induction as with
  | nil =>
    intro bs oa ob
    cases bs with
    | nil => simp [cmpLoop, strCmp_eq_iff]
    | cons b bs => simp [cmpLoop]
  | cons a as ih =>
    intro bs oa ob
    cases bs with
    | nil => simp [cmpLoop]
    | cons b bs =>
      simp only [cmpLoop]
      cases h : strCmp oa ob with
      | lt =>
        simp only [h]
        constructor
        · intro hh; exact absurd hh (by decide)
        · rintro ⟨rfl, -⟩
          rw [strCmp_self] at h
          exact absurd h (by decide)
      | gt =>
        simp only [h]
        constructor
        · intro hh; exact absurd hh (by decide)
        · rintro ⟨rfl, -⟩
          rw [strCmp_self] at h
          exact absurd h (by decide)
      | eq =>
        have hoa := (strCmp_eq_iff oa ob).mp h
        subst hoa
        simp only [h]
        rw [ih bs a b]
        constructor
        · rintro ⟨rfl, rfl⟩
          simp
        · rintro ⟨-, hh⟩
          rw [List.cons.injEq] at hh
          exact hh

/-- Swapping the arguments of the comparison loop swaps the ordering. -/
theorem cmpLoop_swap : ∀ (as bs : List Str) (oa ob : Str),
    cmpLoop ob oa bs as = (cmpLoop oa ob as bs).swap := by
  intro as
  induction as with
  | nil =>
    intro bs oa ob
    cases bs with
    | nil =>
      show strCmp ob oa = (strCmp oa ob).swap
      exact strCmp_swap oa ob
    | cons b bs => rfl
  | cons a as ih =>
    intro bs oa ob
    cases bs with
    | nil => rfl
    | cons b bs =>
      show cmpLoop ob oa (b :: bs) (a :: as) =
        (cmpLoop oa ob (a :: as) (b :: bs)).swap
      simp only [cmpLoop, strCmp_swap oa ob]
      cases h : strCmp oa ob with
      | lt => simp only [h]; rfl
      | gt => simp only [h]; rfl
      | eq =>
        simp only [h]
        show cmpLoop b a bs as = (cmpLoop a b as bs).swap
        exact ih bs a b

/-- The comparison loop is transitive in its strict part. -/
theorem cmpLoop_lt_trans : ∀ (as bs cs : List Str) (oa ob oc : Str),
    cmpLoop oa ob as bs = .lt → cmpLoop ob oc bs cs = .lt →
    cmpLoop oa oc as cs = .lt := by
  intro as
  induction as with
  | nil =>
    intro bs cs oa ob oc h1 h2
    cases bs with
    | nil =>
      cases cs with
      | nil => exact strCmp_lt_trans oa ob oc h1 h2
      | cons c cs => rfl
    | cons b bs =>
      cases cs with
      | nil => exact Ordering.noConfusion h2
      | cons c cs => rfl
  | cons a as ih =>
    intro bs cs oa ob oc h1 h2
    cases bs with
    | nil => exact Ordering.noConfusion h1
    | cons b bs =>
      cases cs with
      | nil => exact Ordering.noConfusion h2
      | cons c cs =>
        simp only [cmpLoop] at h1 h2 ⊢
        cases hab : strCmp oa ob with
        | gt =>
          simp only [hab] at h1
          exact absurd h1 (by decide)
        | lt =>
          simp only [hab] at h1
          cases hbc : strCmp ob oc with
          | gt =>
            simp only [hbc] at h2
            exact absurd h2 (by decide)
          | lt => simp only [strCmp_lt_trans oa ob oc hab hbc]
          | eq =>
            have hb := (strCmp_eq_iff ob oc).mp hbc
            rw [← hb]
            simp only [hab]
        | eq =>
          simp only [hab] at h1
          have ha := (strCmp_eq_iff oa ob).mp hab
          cases hbc : strCmp ob oc with
          | gt =>
            simp only [hbc] at h2
            exact absurd h2 (by decide)
          | lt =>
            rw [ha]
            simp only [hbc]
          | eq =>
            simp only [hbc] at h2
            rw [ha]
            simp only [hbc]
            exact ih bs cs a b c h1 h2

/-- After any shared component list, a lone final component sorts before a
component followed by anything more, whatever the two components are. -/
theorem cmpLoop_common : ∀ (ds : List Str) (o n n2 : Str) (rs : List Str),
    rs ≠ [] → cmpLoop o o (ds ++ [n]) (ds ++ n2 :: rs) = .lt := by
  intro ds
  induction ds with
  | nil =>
    intro o n n2 rs hrs
    cases rs with
    | nil => exact absurd rfl hrs
    | cons r rs =>
      simp only [List.nil_append, cmpLoop, strCmp_self o]
  | cons e ds ih =>
    intro o n n2 rs hrs
    simp only [List.cons_append, cmpLoop, strCmp_self o]
    exact ih e n n2 rs hrs

/-- The comparison of two apaths always produces an ordering: the `expect`
in the source can never panic. -/
theorem apathCmp_isSome (a b : Str) : ∃ o, apathCmp a b = some o := by
  unfold apathCmp
  cases ha : splitSlash a with
  | nil => exact absurd ha (splitSlash_ne_nil a)
  | cons oa as =>
    cases hb : splitSlash b with
    | nil => exact absurd hb (splitSlash_ne_nil b)
    | cons ob bs => exact ⟨cmpLoop oa ob as bs, rfl⟩

/-- Apath comparison returns `eq` exactly on equal strings. -/
theorem apathCmp_eq_iff (a b : Str) : apathCmp a b = some .eq ↔ a = b := by
  unfold apathCmp
  cases ha : splitSlash a with
  | nil => exact absurd ha (splitSlash_ne_nil a)
  | cons oa as =>
    cases hb : splitSlash b with
    | nil => exact absurd hb (splitSlash_ne_nil b)
    | cons ob bs =>
      constructor
      · intro hh
        obtain ⟨rfl, rfl⟩ := (cmpLoop_eq_iff as bs oa ob).mp (Option.some.inj hh)
        exact splitSlash_inj (ha.trans hb.symm)
      · rintro rfl
        rw [ha] at hb
        rw [List.cons.injEq] at hb
        obtain ⟨rfl, rfl⟩ := hb
        exact congrArg some ((cmpLoop_eq_iff as as oa oa).mpr ⟨rfl, rfl⟩)

/-- Swapping the arguments of apath comparison swaps the ordering. -/
theorem apathCmp_swap (a b : Str) :
    apathCmp b a = (apathCmp a b).map Ordering.swap := by
  unfold apathCmp
  cases ha : splitSlash a with
  | nil => exact absurd ha (splitSlash_ne_nil a)
  | cons oa as =>
    cases hb : splitSlash b with
    | nil => exact absurd hb (splitSlash_ne_nil b)
    | cons ob bs =>
      show some (cmpLoop ob oa bs as)
        = Option.map Ordering.swap (some (cmpLoop oa ob as bs))
      rw [cmpLoop_swap as bs oa ob]
      rfl

/-- Apath comparison is transitive in its strict part. -/
theorem apathCmp_lt_trans (a b c : Str) (h1 : apathCmp a b = some .lt)
    (h2 : apathCmp b c = some .lt) : apathCmp a c = some .lt := by
  unfold apathCmp at h1 h2 ⊢
  cases ha : splitSlash a with
  | nil => exact absurd ha (splitSlash_ne_nil a)
  | cons oa as =>
    cases hb : splitSlash b with
    | nil => exact absurd hb (splitSlash_ne_nil b)
    | cons ob bs =>
      cases hc : splitSlash c with
      | nil => exact absurd hc (splitSlash_ne_nil c)
      | cons oc cs =>
        rw [ha, hb] at h1
        rw [hb, hc] at h2
        exact congrArg some (cmpLoop_lt_trans as bs cs oa ob oc
          (Option.some.inj h1) (Option.some.inj h2))

/-- C1.  For every directory path `d` and valid apaths `x = d/name` (with
`name` containing no further separator) and `y = d/name2/...` (at least one
component below `name2`), `Apath::cmp` returns `Less`: every direct child
of a directory sorts before every entry nested in that directory's
subdirectories, whatever the plain string comparison of `name` and `name2`
would say. -/
theorem apath_direct_child_before_descendant
    (d n n2 r : Str)
    (hn : ('/' : Char) ∉ n) (hn2 : ('/' : Char) ∉ n2)
    (hx : Apath.is_valid (d ++ '/' :: n) = true)
    (hy : Apath.is_valid (d ++ '/' :: (n2 ++ '/' :: r)) = true) :
    apathCmp (d ++ '/' :: n) (d ++ '/' :: (n2 ++ '/' :: r)) = some .lt := by
  have h1 : splitSlash (d ++ '/' :: n) = splitSlash d ++ [n] := by
    rw [splitSlash_append_slash, splitSlash_no_slash n hn]
  have h2 : splitSlash (d ++ '/' :: (n2 ++ '/' :: r)) =
      splitSlash d ++ n2 :: splitSlash r := by
    rw [splitSlash_append_slash d (n2 ++ '/' :: r),
      splitSlash_append_slash n2 r, splitSlash_no_slash n2 hn2]
    rfl
  cases hd : splitSlash d with
  | nil => exact absurd hd (splitSlash_ne_nil d)
  | cons d0 ds =>
    rw [hd] at h1 h2
    unfold apathCmp
    rw [h1, h2, List.cons_append, List.cons_append]
    exact congrArg some
      (cmpLoop_common ds d0 n n2 (splitSlash r) (splitSlash_ne_nil r))

/-- C1 witness: concrete instance `/a/zz` against `/a/aa/bb`, where the
direct child's name `zz` sorts after `aa` as a plain string. -/
theorem apath_direct_child_before_descendant_witness :
    apathCmp ("/a/zz".toList) ("/a/aa/bb".toList) = some .lt := by
  have h := apath_direct_child_before_descendant ("/a".toList) ("zz".toList)
    ("aa".toList) ("bb".toList) (by decide) (by decide) (by decide) (by decide)
  exact h

/-- C2.  On valid apaths, `Apath::cmp` is a strict total order consistent
with string equality: a comparison result always exists (so with the next
two parts exactly one of less, equal, greater holds between two paths),
`eq` holds exactly on equal strings, `lt` one way is `gt` the other way,
and `lt` is transitive. -/
theorem apath_cmp_total_order (a b c : Str)
    (ha : Apath.is_valid a = true) (hb : Apath.is_valid b = true)
    (hc : Apath.is_valid c = true) :
    (∃ o, apathCmp a b = some o)
    ∧ (apathCmp a b = some .eq ↔ a = b)
    ∧ (apathCmp a b = some .lt ↔ apathCmp b a = some .gt)
    ∧ (apathCmp a b = some .lt → apathCmp b c = some .lt →
        apathCmp a c = some .lt) := by
  refine ⟨apathCmp_isSome a b, apathCmp_eq_iff a b, ?_,
    apathCmp_lt_trans a b c⟩
  constructor
  · intro h
    rw [apathCmp_swap a b, h]
    rfl
  · intro h
    rw [apathCmp_swap a b] at h
    rcases apathCmp_isSome a b with ⟨o, ho⟩
    rw [ho] at h
    have hsw : o.swap = Ordering.gt := Option.some.inj h
    cases o with
    | lt => exact ho
    | eq => exact absurd hsw (by decide)
    | gt => exact absurd hsw (by decide)

/-- C2 witness: the total-order facts applied at `/a`, `/b`, `/c/x`. -/
theorem apath_cmp_total_order_witness :
    apathCmp ("/b".toList) ("/a".toList) = some .gt
    ∧ apathCmp ("/a".toList) ("/c/x".toList) = some .lt := by
  have h := apath_cmp_total_order ("/a".toList) ("/b".toList) ("/c/x".toList)
    (by decide) (by decide) (by decide)
  exact ⟨h.2.2.1.mp (by decide), h.2.2.2 (by decide) (by decide)⟩

/-- C3.  `Apath::is_valid` rejects each of the spec's literal bad inputs
and every string containing a NUL character, accepts "/", and accepts every
slash-prefixed string all of whose slash-separated segments are non-empty,
different from "." and "..", and NUL-free. -/
theorem is_valid_matches_spec :
    (Apath.is_valid ("".toList) = false
      ∧ Apath.is_valid ("//".toList) = false
      ∧ Apath.is_valid ("//a".toList) = false
      ∧ Apath.is_valid ("/a//b".toList) = false
      ∧ Apath.is_valid ("/a/".toList) = false
      ∧ Apath.is_valid ("/a//".toList) = false
      ∧ Apath.is_valid ("./a/b".toList) = false
      ∧ Apath.is_valid ("/./a/b".toList) = false
      ∧ Apath.is_valid ("/a/b/.".toList) = false
      ∧ Apath.is_valid ("/a/./b".toList) = false
      ∧ Apath.is_valid ("/a/b/../c".toList) = false
      ∧ Apath.is_valid ("../a".toList) = false)
    ∧ (∀ a : Str, nulChar ∈ a → Apath.is_valid a = false)
    ∧ Apath.is_valid ("/".toList) = true
    ∧ (∀ rest : Str,
        (∀ p ∈ splitSlash rest,
          p ≠ [] ∧ p ≠ ['.'] ∧ p ≠ ['.', '.'] ∧ nulChar ∉ p) →
        Apath.is_valid ('/' :: rest) = true) := by
  refine ⟨by decide, ?_, by decide, ?_⟩
  · intro a hmem
    cases a with
    | nil => rfl
    | cons c rest =>
      by_cases hc : c = '/'
      · subst hc
        cases rest with
        | nil =>
          simp only [List.mem_singleton] at hmem
          exact absurd hmem (by decide)
        | cons d rs =>
          have hmem2 : nulChar ∈ d :: rs := by
            rcases List.mem_cons.mp hmem with h1 | h2
            · exact absurd h1 (by decide)
            · exact h2
          obtain ⟨p, hp, hcp⟩ := mem_splitSlash (by decide) hmem2
          have hv : Apath.is_valid ('/' :: d :: rs) =
              (splitSlash (d :: rs)).all (fun part =>
                !(part.isEmpty || part == ['.'] || part == ['.', '.']
                  || part.contains nulChar)) := rfl
          rw [hv, List.all_eq_false]
          refine ⟨p, hp, ?_⟩
          have he : p.contains nulChar = true := List.elem_eq_true_of_mem hcp
          rw [he]
          simp
      · simp [Apath.is_valid, if_neg hc]
  · intro rest h
    cases rest with
    | nil => rfl
    | cons d rs =>
      have hv : Apath.is_valid ('/' :: d :: rs) =
          (splitSlash (d :: rs)).all (fun part =>
            !(part.isEmpty || part == ['.'] || part == ['.', '.']
              || part.contains nulChar)) := rfl
      rw [hv, List.all_eq_true]
      intro p hp
      obtain ⟨h1, h2, h3, h4⟩ := h p hp
      have e1 : p.isEmpty = false := by
        cases p with
        | nil => exact absurd rfl h1
        | cons x xs => rfl
      have e2 : (p == ['.']) = false := beq_eq_false_iff_ne.mpr h2
      have e3 : (p == ['.', '.']) = false := beq_eq_false_iff_ne.mpr h3
      have e4 : p.contains nulChar = false := by
        cases hcc : p.contains nulChar with
        | false => rfl
        | true => exact absurd (List.mem_of_elem_eq_true hcc) h4
      rw [e1, e2, e3, e4]
      rfl

/-- C3 witness: the general clauses applied to a NUL-containing string and
to a well-formed two-segment path. -/
theorem is_valid_matches_spec_witness :
    Apath.is_valid ['/', nulChar] = false
    ∧ Apath.is_valid ('/' :: ("a/b".toList)) = true := by
  have h := is_valid_matches_spec
  exact ⟨h.2.1 ['/', nulChar] (by decide),
    h.2.2.2 ("a/b".toList) (by decide)⟩

/-- Unfolding `surviving` over an excluded child. -/
theorem surviving_cons_excluded (ex : Str → Bool) (parent : Str)
    (c : Str × FsTree) (cs : List (Str × FsTree))
    (hex : ex (childApathOf parent c.1) = true) :
    surviving ex parent (c :: cs) = surviving ex parent cs := by
  simp [surviving, List.filterMap_cons, hex]

/-- Unfolding `surviving` over a kept child. -/
theorem surviving_cons_kept (ex : Str → Bool) (parent : Str)
    (c : Str × FsTree) (cs : List (Str × FsTree))
    (hex : ex (childApathOf parent c.1) = false) :
    surviving ex parent (c :: cs) =
      (c.1, LiveEntry.from_fs_metadata (childApathOf parent c.1) c.2
        (symTargetOf c.2)) :: surviving ex parent cs := by
  simp [surviving, List.filterMap_cons, hex]

/-- The child loop of `visit_next_directory` accumulates exactly the
surviving children, in listing order. -/
theorem visit_fold_children (ex : Str → Bool) (parent : Str) :
    ∀ (cs : List (Str × FsTree)) (acc : List (Str × LiveEntry)) (rep : Report),
    (cs.foldl (visitChildStep ex parent) (acc, rep)).1
      = acc ++ surviving ex parent cs := by
  intro cs
  induction cs with
  | nil =>
    intro acc rep
    simp [surviving]
  | cons c cs ih =>
    intro acc rep
    obtain ⟨name, sub⟩ := c
    rw [List.foldl_cons]
    cases hex : ex (childApathOf parent name) with
    | true =>
      rw [surviving_cons_excluded ex parent (name, sub) cs hex]
      have h1 : (visitChildStep ex parent (acc, rep) (name, sub)).1 = acc := by
        cases sub <;> simp [visitChildStep, FsTree.kind, hex]
      have h2 := ih (visitChildStep ex parent (acc, rep) (name, sub)).1
        (visitChildStep ex parent (acc, rep) (name, sub)).2
      rw [Prod.mk.eta] at h2
      rw [h1] at h2
      exact h2
    | false =>
      rw [surviving_cons_kept ex parent (name, sub) cs hex]
      have h1 : visitChildStep ex parent (acc, rep) (name, sub) =
          (acc ++ [(name, LiveEntry.from_fs_metadata (childApathOf parent name)
            sub (symTargetOf sub))], rep) := by
        simp [visitChildStep, hex]
      rw [h1, ih]
      simp

/-- Pushing a list of directories one by one onto the front of a deque in
reverse order leaves them on the front in their original order. -/
theorem push_front_rev (l : List (Str × LiveEntry)) :
    ∀ dq : List Str,
    l.reverse.foldl (fun dq x => x.2.apath :: dq) dq
      = l.map (fun x => x.2.apath) ++ dq := by
  induction l with
  | nil => intro dq; rfl
  | cons x l ih =>
    intro dq
    rw [List.reverse_cons, List.foldl_append, ih]
    rfl

/-- Insertion keeps the same elements. -/
theorem insertByName_perm (x : Str × LiveEntry) (l : List (Str × LiveEntry)) :
    List.Perm (insertByName x l) (x :: l) := by
  induction l with
  | nil => exact List.Perm.refl _
  | cons y ys ih =>
    simp only [insertByName]
    by_cases h : strCmp x.1 y.1 = .gt
    · rw [if_pos h]
      exact (ih.cons y).trans (List.Perm.swap x y ys)
    · rw [if_neg h]

/-- Sorting keeps the same elements. -/
theorem sortByName_perm (l : List (Str × LiveEntry)) :
    List.Perm (sortByName l) l := by
  induction l with
  | nil => exact List.Perm.refl _
  | cons x xs ih =>
    exact (insertByName_perm x (sortByName xs)).trans (ih.cons x)

/-- Non-strict name comparison is transitive. -/
theorem strCmp_le_trans {a b c : Str} (h1 : strCmp a b ≠ .gt)
    (h2 : strCmp b c ≠ .gt) : strCmp a c ≠ .gt := by
  cases hab : strCmp a b with
  | gt => exact absurd hab h1
  | eq =>
    have := (strCmp_eq_iff a b).mp hab
    subst this
    exact h2
  | lt =>
    cases hbc : strCmp b c with
    | gt => exact absurd hbc h2
    | eq =>
      have := (strCmp_eq_iff b c).mp hbc
      subst this
      rw [hab]
      intro hx
      exact absurd hx (by decide)
    | lt =>
      rw [strCmp_lt_trans a b c hab hbc]
      intro hx
      exact absurd hx (by decide)

/-- Inserting into a name-sorted list keeps it name-sorted. -/
theorem insertByName_pairwise (x : Str × LiveEntry)
    (l : List (Str × LiveEntry))
    (hl : List.Pairwise (fun a b => strCmp a.1 b.1 ≠ Ordering.gt) l) :
    List.Pairwise (fun a b => strCmp a.1 b.1 ≠ Ordering.gt)
      (insertByName x l) := by
  induction l with
  | nil => simp [insertByName]
  | cons y ys ih =>
    rcases List.pairwise_cons.mp hl with ⟨hy, hys⟩
    simp only [insertByName]
    by_cases h : strCmp x.1 y.1 = .gt
    · rw [if_pos h]
      rw [List.pairwise_cons]
      constructor
      · intro z hz
        have hz2 := (insertByName_perm x ys).mem_iff.mp hz
        rcases List.mem_cons.mp hz2 with hz3 | hzys
        · rw [hz3, strCmp_swap x.1 y.1, h]
          decide
        · exact hy z hzys
      · exact ih hys
    · rw [if_neg h]
      rw [List.pairwise_cons]
      refine ⟨?_, hl⟩
      intro z hz
      rcases List.mem_cons.mp hz with rfl | hzys
      · exact h
      · exact strCmp_le_trans h (hy z hzys)

/-- The child sort produces a name-sorted list. -/
theorem sortByName_pairwise (l : List (Str × LiveEntry)) :
    List.Pairwise (fun a b => strCmp a.1 b.1 ≠ Ordering.gt) (sortByName l) := by
  induction l with
  | nil => simp [sortByName]
  | cons x xs ih => exact insertByName_pairwise x (sortByName xs) ih

/-- C4.  Expanding a directory appends all surviving children, sorted by
name under plain string comparison, to the back of the ready-entry queue
(every kind alike), and pushes exactly the child directories onto the front
of the pending-directories queue in reverse sorted order, so that queue
read front-to-back lists them ascending and ahead of previously pending
directories; fetching the next entry pops the ready queue first (recording
the apath with the order checker), expands the front pending directory only
when the ready queue is empty, and is exhausted when both are empty. -/
theorem walker_expansion_and_fetch
    (st : Iter) (parent : Str) (m : Int) (cs : List (Str × FsTree))
    (hdir : st.root.lookup (apathComponents parent) = some (.dir m cs)) :
    ((visit_next_directory st parent).entry_deque
        = st.entry_deque
          ++ (sortByName (surviving st.excludes parent cs)).map (fun x => x.2)
      ∧ (visit_next_directory st parent).dir_deque
        = ((sortByName (surviving st.excludes parent cs)).filter
            (fun x => x.2.kind = Kind.dir)).map (fun x => x.2.apath)
          ++ st.dir_deque
      ∧ List.Perm (sortByName (surviving st.excludes parent cs))
          (surviving st.excludes parent cs)
      ∧ List.Pairwise (fun a b => strCmp a.1 b.1 ≠ Ordering.gt)
          (sortByName (surviving st.excludes parent cs)))
    ∧ (∀ (fuel : Nat) (e : LiveEntry) (rest : List LiveEntry),
        st.entry_deque = e :: rest →
        Iter.next fuel st = (some e, { st with
          entry_deque := rest
          report := { st.report with selected := st.report.selected + 1 }
          last_apath := some e.apath }))
    ∧ (∀ (fuel : Nat) (d : Str) (ds : List Str),
        st.entry_deque = [] → st.dir_deque = d :: ds →
        Iter.next (fuel + 1) st
          = Iter.next fuel (visit_next_directory { st with dir_deque := ds } d))
    ∧ (∀ fuel : Nat, st.entry_deque = [] → st.dir_deque = [] →
        Iter.next fuel st = (none, st)) := by
  refine ⟨⟨?_, ?_, sortByName_perm _, sortByName_pairwise _⟩, ?_, ?_, ?_⟩
  · simp only [visit_next_directory, hdir, visit_fold_children,
      List.nil_append]
  · simp only [visit_next_directory, hdir, visit_fold_children,
      List.nil_append, push_front_rev]
  · intro fuel e rest he
    obtain ⟨rt, dq, ed, rp, la, ex⟩ := st
    have he2 : ed = e :: rest := he
    subst he2
    cases fuel <;> rfl
  · intro fuel d ds he hd
    obtain ⟨rt, dq, ed, rp, la, ex⟩ := st
    have he2 : ed = [] := he
    have hd2 : dq = d :: ds := hd
    subst he2
    subst hd2
    rfl
  · intro fuel he hd
    obtain ⟨rt, dq, ed, rp, la, ex⟩ := st
    have he2 : ed = [] := he
    have hd2 : dq = [] := hd
    subst he2
    subst hd2
    cases fuel <;> rfl

/-- C4 witness: the expansion and pop equations at a concrete state. -/
theorem walker_expansion_and_fetch_witness :
    (visit_next_directory witnessIterSt ['/']).dir_deque
      = ((sortByName (surviving excludes_nothing ['/'] fixtureChildren)).filter
          (fun x => x.2.kind = Kind.dir)).map (fun x => x.2.apath)
        ++ ["/x".toList]
    ∧ Iter.next 3 witnessIterSt
      = (some (LiveEntry.from_fs_metadata ['/'] fixtureTree none),
         { witnessIterSt with
           entry_deque := []
           report := { initialReport with selected := 1 }
           last_apath := some ['/'] }) := by
  have h := walker_expansion_and_fetch witnessIterSt ['/'] 0 fixtureChildren rfl
  exact ⟨h.1.2.1,
    h.2.1 3 (LiveEntry.from_fs_metadata ['/'] fixtureTree none) [] rfl⟩

/-- C5.  Constructing the walker stats the root and fails with a fatal,
shown error exactly when the root cannot be stat-ed; on success the ready
queue holds exactly the root entry at "/" with the kind from the root's
metadata, and the pending queue holds exactly the root directory. -/
theorem iter_new_contract (root : Option FsTree) (ex : Str → Bool)
    (rep : Report) :
    (root = none →
      Iter.new root ex rep
        = .error { rep with errors_shown := rep.errors_shown + 1 })
    ∧ (∀ t, root = some t →
      ∃ it, Iter.new root ex rep = .ok it
        ∧ it.entry_deque = [LiveEntry.from_fs_metadata ['/'] t none]
        ∧ (LiveEntry.from_fs_metadata ['/'] t none).apath = ['/']
        ∧ (LiveEntry.from_fs_metadata ['/'] t none).kind = t.kind
        ∧ it.dir_deque = [['/']]) := by
  constructor
  · rintro rfl
    rfl
  · rintro t rfl
    exact ⟨_, rfl, rfl, rfl, rfl, rfl⟩

/-- C5 witness: a missing root fails with the shown error; an existing root
primes the two queues. -/
theorem iter_new_contract_witness :
    Iter.new none excludes_nothing initialReport
      = .error { initialReport with errors_shown := 1 }
    ∧ ∃ it, Iter.new (some fixtureTree) excludes_nothing initialReport
        = .ok it ∧ it.dir_deque = [['/']] := by
  have h1 := (iter_new_contract none excludes_nothing initialReport).1 rfl
  have h2 := (iter_new_contract (some fixtureTree) excludes_nothing
    initialReport).2 fixtureTree rfl
  exact ⟨h1, h2.choose, h2.choose_spec.1, h2.choose_spec.2.2.2.2⟩

/-- C6.  An excluded child never reaches the surviving-children list (so it
is neither queued as an entry nor pushed for expansion, and nothing beneath
it is visited); and on the fixture, under the patterns skipping names
starting with `fooo`, names `bap`/`baq`/`bar`, and names ending in `bas`,
the walk emits exactly `/`, `/baz`, `/baz/test` with 4 files and 1
directory counted as skipped. -/
theorem exclusion_omits_subtree :
    (∀ (ex : Str → Bool) (parent : Str) (cs : List (Str × FsTree))
        (x : Str × LiveEntry), x ∈ surviving ex parent cs →
        ex x.2.apath = false)
    ∧ ((Iter.new (some fixtureTree) fixtureExcludes initialReport).toOption.map
        (fun it =>
          let r := Iter.drain 20 it
          (r.1.map (fun (e : LiveEntry) => e.apath),
            r.2.report.skipped_excluded_files,
            r.2.report.skipped_excluded_directories)))
      = some ([['/'], "/baz".toList, "/baz/test".toList], 4, 1) := by
  constructor
  · intro ex parent cs x hx
    simp only [surviving, List.mem_filterMap] at hx
    obtain ⟨c, hc, hsome⟩ := hx
    by_cases hex : ex (childApathOf parent c.1) = true
    · rw [if_pos hex] at hsome
      exact Option.noConfusion hsome
    · rw [if_neg hex] at hsome
      have hxe := Option.some.inj hsome
      rw [← hxe]
      show ex (childApathOf parent c.1) = false
      exact (Bool.not_eq_true _) ▸ hex
  · rfl

/-- C6 witness: the omission clause applied to the fixture's surviving
child `/baz`. -/
theorem exclusion_omits_subtree_witness :
    fixtureExcludes ("/baz".toList) = false := by
  have h := exclusion_omits_subtree.1 fixtureExcludes ['/'] fixtureChildren
    ("baz".toList,
      LiveEntry.from_fs_metadata ("/baz".toList) bazNode (symTargetOf bazNode))
    (by decide)
  exact h

/-- A valid apath has a second split piece, so the copy engine's live debug
indexing `subtree[1]` cannot panic on entries carrying valid apaths. -/
theorem valid_apath_piece1 {a : Str} (h : Apath.is_valid a = true) :
    ∃ x, (splitSlash a).get? 1 = some x := by
  cases a with
  | nil => simp [Apath.is_valid] at h
  | cons c rest =>
    by_cases hc : c = '/'
    · subst hc
      rw [splitSlash_cons_slash]
      cases hr : splitSlash rest with
      | nil => exact absurd hr (splitSlash_ne_nil rest)
      | cons y ys => exact ⟨y, rfl⟩
    · simp [Apath.is_valid, if_neg hc] at h

/-- Characterization of the copy loop: on a source of valid apaths it never
panics, requests exactly one destination operation per non-unknown entry in
order and then the finish, and produces the accumulated statistics (plus
the finish statistics) on a successful finish or the finish error. -/
theorem copyTreeGo_spec {ε σ : Type} (dest : DestModel ε σ)
    (opts : CopyOptions) :
    ∀ (source : List LiveEntry),
    (∀ e ∈ source, Apath.is_valid e.apath = true) →
    ∀ (s : σ) (stats : CopyStats) (ops : List DestOp) (pr : List Str),
    ∃ out : CopyOut ε, copyTreeGo dest opts source s stats ops pr = some out
      ∧ out.ops = ops ++ opsOf dest s source ++ [DestOp.finish]
      ∧ out.result = (match dest.finish (destAfter dest s source) with
          | .ok fs => .ok ((statsAfter dest s stats source).add fs)
          | .error e => .error e) := by
  intro source
  induction source with
  | nil =>
    intro hv s stats ops pr
    cases hf : dest.finish s with
    | ok fs =>
      refine ⟨⟨ops ++ [DestOp.finish], pr, .ok (stats.add fs)⟩, ?_, ?_, ?_⟩
      · simp only [copyTreeGo, hf]
      · simp [opsOf]
      · simp [destAfter, statsAfter, hf]
    | error e2 =>
      refine ⟨⟨ops ++ [DestOp.finish], pr, .error e2⟩, ?_, ?_, ?_⟩
      · simp only [copyTreeGo, hf]
      · simp [opsOf]
      · simp [destAfter, statsAfter, hf]
  | cons entry rest ih =>
    intro hv s stats ops pr
    have hval : Apath.is_valid entry.apath = true :=
      hv entry (List.mem_cons_self _ _)
    obtain ⟨x1, hx1⟩ := valid_apath_piece1 hval
    have hv2 : ∀ e ∈ rest, Apath.is_valid e.apath = true :=
      fun e he => hv e (List.mem_cons_of_mem _ he)
    simp only [copyTreeGo, hx1, opsOf, destAfter, statsAfter]
    cases hk : entry.kind with
    | dir =>
      simp only [hk]
      cases hr : (dest.copy_dir s entry).2 with
      | ok u =>
        simp only [hr]
        obtain ⟨out, hout, hops, hres⟩ := ih hv2 _ _ _ _
        rw [hout]
        refine ⟨out, rfl, ?_, hres⟩
        rw [hops]
        simp
      | error err =>
        simp only [hr]
        obtain ⟨out, hout, hops, hres⟩ := ih hv2 _ _ _ _
        rw [hout]
        refine ⟨out, rfl, ?_, hres⟩
        rw [hops]
        simp
    | file =>
      simp only [hk]
      cases hr : (dest.copy_file s entry).2 with
      | ok fst =>
        simp only [hr]
        obtain ⟨out, hout, hops, hres⟩ := ih hv2 _ _ _ _
        rw [hout]
        refine ⟨out, rfl, ?_, hres⟩
        rw [hops]
        simp
      | error err =>
        simp only [hr]
        obtain ⟨out, hout, hops, hres⟩ := ih hv2 _ _ _ _
        rw [hout]
        refine ⟨out, rfl, ?_, hres⟩
        rw [hops]
        simp
    | symlink =>
      simp only [hk]
      cases hr : (dest.copy_symlink s entry).2 with
      | ok u =>
        simp only [hr]
        obtain ⟨out, hout, hops, hres⟩ := ih hv2 _ _ _ _
        rw [hout]
        refine ⟨out, rfl, ?_, hres⟩
        rw [hops]
        simp
      | error err =>
        simp only [hr]
        obtain ⟨out, hout, hops, hres⟩ := ih hv2 _ _ _ _
        rw [hout]
        refine ⟨out, rfl, ?_, hres⟩
        rw [hops]
        simp
    | unknown =>
      simp only [hk]
      obtain ⟨out, hout, hops, hres⟩ := ih hv2 _ _ _ _
      rw [hout]
      exact ⟨out, rfl, hops, hres⟩

/-- The errors counter accumulated by the copy loop counts exactly the
failing destination operations, provided successful per-file statistics
carry no error counts of their own. -/
theorem statsAfter_errors {ε σ : Type} (dest : DestModel ε σ)
    (hmerge : ∀ (s : σ) (e : LiveEntry) (fs : CopyStats),
      (dest.copy_file s e).2 = .ok fs → fs.errors = 0) :
    ∀ (source : List LiveEntry) (s : σ) (stats : CopyStats),
    (statsAfter dest s stats source).errors
      = stats.errors + countFailed dest s source := by
  intro source
  induction source with
  | nil =>
    intro s stats
    simp [statsAfter, countFailed]
  | cons e rest ih =>
    intro s stats
    simp only [statsAfter, countFailed]
    cases hk : e.kind with
    | dir =>
      simp only [hk]
      cases hr : (dest.copy_dir s e).2 with
      | ok u =>
        simp only [hr]
        rw [ih]
        simp
      | error err =>
        simp only [hr]
        rw [ih]
        simp
        omega
    | file =>
      simp only [hk]
      cases hr : (dest.copy_file s e).2 with
      | ok fst =>
        simp only [hr]
        rw [ih]
        have h0 := hmerge s e fst hr
        simp [CopyStats.add, h0]
      | error err =>
        simp only [hr]
        rw [ih]
        simp
        omega
    | symlink =>
      simp only [hk]
      cases hr : (dest.copy_symlink s e).2 with
      | ok u =>
        simp only [hr]
        rw [ih]
        simp
      | error err =>
        simp only [hr]
        rw [ih]
        simp
        omega
    | unknown =>
      simp only [hk]
      rw [ih]

/-- Characterization of the copy loop with the debug block removed: same
destination operations and same result as the full loop. -/
theorem copyTreeCleanGo_spec {ε σ : Type} (dest : DestModel ε σ)
    (opts : CopyOptions) :
    ∀ (source : List LiveEntry) (s : σ) (stats : CopyStats)
      (ops : List DestOp) (pr : List Str),
    (copyTreeCleanGo dest opts source s stats ops pr).ops
        = ops ++ opsOf dest s source ++ [DestOp.finish]
      ∧ (copyTreeCleanGo dest opts source s stats ops pr).result
        = (match dest.finish (destAfter dest s source) with
            | .ok fs => .ok ((statsAfter dest s stats source).add fs)
            | .error e => .error e) := by
  intro source
  induction source with
  | nil =>
    intro s stats ops pr
    cases hf : dest.finish s with
    | ok fs =>
      constructor <;>
        simp [copyTreeCleanGo, opsOf, destAfter, statsAfter, hf]
    | error e2 =>
      constructor <;>
        simp [copyTreeCleanGo, opsOf, destAfter, statsAfter, hf]
  | cons entry rest ih =>
    intro s stats ops pr
    simp only [copyTreeCleanGo, opsOf, destAfter, statsAfter]
    cases hk : entry.kind with
    | dir =>
      simp only [hk]
      cases hr : (dest.copy_dir s entry).2 with
      | ok u =>
        simp only [hr]
        obtain ⟨hops, hres⟩ := ih _ _ _ _
        constructor
        · rw [hops]
          simp
        · rw [hres]
      | error err =>
        simp only [hr]
        obtain ⟨hops, hres⟩ := ih _ _ _ _
        constructor
        · rw [hops]
          simp
        · rw [hres]
    | file =>
      simp only [hk]
      cases hr : (dest.copy_file s entry).2 with
      | ok fst =>
        simp only [hr]
        obtain ⟨hops, hres⟩ := ih _ _ _ _
        constructor
        · rw [hops]
          simp
        · rw [hres]
      | error err =>
        simp only [hr]
        obtain ⟨hops, hres⟩ := ih _ _ _ _
        constructor
        · rw [hops]
          simp
        · rw [hres]
    | symlink =>
      simp only [hk]
      cases hr : (dest.copy_symlink s entry).2 with
      | ok u =>
        simp only [hr]
        obtain ⟨hops, hres⟩ := ih _ _ _ _
        constructor
        · rw [hops]
          simp
        · rw [hres]
      | error err =>
        simp only [hr]
        obtain ⟨hops, hres⟩ := ih _ _ _ _
        constructor
        · rw [hops]
          simp
        · rw [hres]
    | unknown =>
      simp only [hk]
      obtain ⟨hops, hres⟩ := ih _ _ _ _
      exact ⟨hops, hres⟩

/-- C7.  A failing destination operation for a single entry is reported but
not propagated: the errors counter counts exactly the failing operations
(plus whatever the destination's finish statistics carry), the loop
requests one operation per non-unknown entry to the end, and a run whose
only failures are per-entry ends in `Ok` with the accumulated statistics. -/
theorem copy_tree_recoverable {ε σ : Type} (source : List LiveEntry)
    (dest : DestModel ε σ) (s0 : σ) (opts : CopyOptions)
    (hv : ∀ e ∈ source, Apath.is_valid e.apath = true)
    (hfin : ∀ s : σ, ∃ fs, dest.finish s = .ok fs)
    (hmerge : ∀ (s : σ) (e : LiveEntry) (fs : CopyStats),
      (dest.copy_file s e).2 = .ok fs → fs.errors = 0) :
    ∃ (out : CopyOut ε) (stats fs : CopyStats),
      copy_tree source dest s0 opts = some out
      ∧ out.result = .ok stats
      ∧ dest.finish (destAfter dest s0 source) = .ok fs
      ∧ stats.errors = countFailed dest s0 source + fs.errors
      ∧ out.ops = opsOf dest s0 source ++ [DestOp.finish] := by
  obtain ⟨out, hout, hops, hres⟩ := copyTreeGo_spec dest opts source hv s0 {} [] []
  obtain ⟨fs, hfs⟩ := hfin (destAfter dest s0 source)
  refine ⟨out, (statsAfter dest s0 {} source).add fs, fs, hout, ?_, hfs, ?_,
    by simpa using hops⟩
  · rw [hres, hfs]
  · have hadd : ∀ a b : CopyStats, (a.add b).errors = a.errors + b.errors :=
      fun a b => rfl
    rw [hadd, statsAfter_errors dest hmerge source s0 {}]
    have h0 : ({} : CopyStats).errors = 0 := rfl
    omega

/-- C8.  The exploratory debug block in `copy_tree` (the hard-coded
matching of each entry's apath against "DataScienceatHome") has no effect
on the result or on the destination operations: on any source of valid
apaths (as every tree iterator produces) the function agrees with the
variant that omits the block.  The block is not entirely commented out — it
splits each apath and prints two debug lines — but nothing it computes is
used afterwards. -/
theorem copy_tree_debug_block_no_effect {ε σ : Type} (source : List LiveEntry)
    (dest : DestModel ε σ) (s0 : σ) (opts : CopyOptions)
    (hv : ∀ e ∈ source, Apath.is_valid e.apath = true) :
    ∃ out : CopyOut ε, copy_tree source dest s0 opts = some out
      ∧ out.ops = (copy_tree_clean source dest s0 opts).ops
      ∧ out.result = (copy_tree_clean source dest s0 opts).result := by
  obtain ⟨out, hout, hops, hres⟩ := copyTreeGo_spec dest opts source hv s0 {} [] []
  obtain ⟨hops2, hres2⟩ := copyTreeCleanGo_spec dest opts source s0 {} [] []
  refine ⟨out, hout, ?_, ?_⟩
  · rw [hops]
    exact hops2.symm
  · rw [hres]
    exact hres2.symm

/-- C10.  A failing destination finalize is fatal: after the source is
exhausted, a finish error becomes the result of `copy_tree`, and the
statistics accumulated during the run are discarded (the error carries no
statistics). -/
theorem copy_tree_finish_error_fatal {ε σ : Type} (source : List LiveEntry)
    (dest : DestModel ε σ) (s0 : σ) (opts : CopyOptions)
    (hv : ∀ e ∈ source, Apath.is_valid e.apath = true) (e : ε)
    (hfin : dest.finish (destAfter dest s0 source) = .error e) :
    ∃ out : CopyOut ε, copy_tree source dest s0 opts = some out
      ∧ out.result = .error e := by
  obtain ⟨out, hout, hops, hres⟩ := copyTreeGo_spec dest opts source hv s0 {} [] []
  refine ⟨out, hout, ?_⟩
  rw [hres, hfin]

/-- C9.  `LiveTree::open` never fails: it stores the path and report
without checking the root, and the fatal root-stat failure only appears
when `iter_entries` constructs the walker. -/
theorem live_tree_open_never_fails (root : Option FsTree)
    (rep rep2 : Report) :
    (LiveTree.open root rep
      = .ok { root := root, excludes := excludes_nothing, report := rep })
    ∧ (root = none → ∀ lt2, LiveTree.open root rep = .ok lt2 →
        lt2.iter_entries rep2
          = .error { rep2 with errors_shown := rep2.errors_shown + 1 }) := by
  constructor
  · rfl
  · rintro rfl lt2 hopen
    have h2 : lt2
        = { root := none, excludes := excludes_nothing, report := rep } :=
      (Except.ok.inj hopen).symm
    subst h2
    rfl

/-- C9 witness: opening a missing root succeeds, and the walker
construction raises the error. -/
theorem live_tree_open_never_fails_witness :
    LiveTree.open none initialReport
      = .ok { root := none, excludes := excludes_nothing
              report := initialReport }
    ∧ (LiveTree.iter_entries
        { root := none, excludes := excludes_nothing, report := initialReport }
        initialReport)
      = .error { initialReport with errors_shown := 1 } := by
  have h := live_tree_open_never_fails none initialReport initialReport
  exact ⟨h.1, h.2 rfl
    { root := none, excludes := excludes_nothing, report := initialReport }
    rfl⟩

/-- C7 witness: the per-entry-failure contract at a concrete source and
destination where the single file copy fails. -/
theorem copy_tree_recoverable_witness :
    ∃ (out : CopyOut Nat) (stats fs : CopyStats),
      copy_tree witnessSource witnessDest 0 ⟨false, false⟩ = some out
      ∧ out.result = .ok stats
      ∧ witnessDest.finish (destAfter witnessDest 0 witnessSource) = .ok fs
      ∧ stats.errors = countFailed witnessDest 0 witnessSource + fs.errors
      ∧ out.ops = opsOf witnessDest 0 witnessSource ++ [DestOp.finish] :=
  copy_tree_recoverable witnessSource witnessDest 0 ⟨false, false⟩ (by decide)
    (fun _ => ⟨{}, rfl⟩) (fun _ _ _ h => Except.noConfusion h)

/-- C8 witness: the equivalence at a concrete source and destination. -/
theorem copy_tree_debug_block_no_effect_witness :
    ∃ out : CopyOut Nat,
      copy_tree witnessSource witnessDest 0 ⟨true, false⟩ = some out
      ∧ out.ops = (copy_tree_clean witnessSource witnessDest 0
          ⟨true, false⟩).ops
      ∧ out.result = (copy_tree_clean witnessSource witnessDest 0
          ⟨true, false⟩).result :=
  copy_tree_debug_block_no_effect witnessSource witnessDest 0 ⟨true, false⟩
    (by decide)

/-- C10 witness: the finish failure surfacing at a concrete destination. -/
theorem copy_tree_finish_error_fatal_witness :
    ∃ out : CopyOut Nat,
      copy_tree witnessSource witnessFinishFailDest 0 ⟨false, false⟩
        = some out
      ∧ out.result = .error 9 :=
  copy_tree_finish_error_fatal witnessSource witnessFinishFailDest 0
    ⟨false, false⟩ (by decide) 9 rfl

end Conserve
